import Mathlib

/-!
Verification of the pitch-detection core of `src/lib/tuner.ts`.

The sample buffers carry exact rational amplitudes (the TypeScript source
uses floating point; all claims here are settled over exact arithmetic).
Buffers are `List ℚ`; out-of-range reads default to `0`, which is only ever
exercised where the source also reads a well-defined value or where a
comparison against the default is false exactly as the source's comparison
against `undefined` is false.

The source's `for` loops are rendered as structurally recursive functions
on an explicit iteration budget (`fuel`).  Each loop keeps its own bound
check, so the budget is inert as long as it is at least the number of
iterations the source performs; every caller passes such a budget.
-/

/-- `buffer[i]` with default 0, mirroring indexed reads of a `Float32Array`. -/
def gQ (xs : List ℚ) (i : ℕ) : ℚ := xs.getD i 0

/-- Total energy `Σ_j x[j]²` of a buffer (the initial accumulator of
`computeNsdf` before doubling, and the numerator of the RMS gate). -/
def sumSq (x : List ℚ) : ℚ := ∑ j ∈ Finset.range x.length, gQ x j * gQ x j

/-- Raw autocorrelation at lag `tau`:
`r(τ) = Σ_{j=0}^{N-τ-1} x[j]·x[j+τ]` (the inner loop of `computeNsdf`). -/
def autocorr (x : List ℚ) (tau : ℕ) : ℚ :=
  ∑ j ∈ Finset.range (x.length - tau), gQ x j * gQ x (j + tau)

/-- `Σ_{j=0}^{N-τ-1} x[j]²`, the "own energy" part of the denominator the
code maintains incrementally. -/
def mHead (x : List ℚ) (tau : ℕ) : ℚ :=
  ∑ j ∈ Finset.range (x.length - tau), gQ x j * gQ x j

/-- `Σ_{j=τ}^{N-1} x[j]²`, the "overlapping tail" part of the denominator. -/
def mTail (x : List ℚ) (tau : ℕ) : ℚ :=
  ∑ j ∈ Finset.range (x.length - tau), gQ x (j + tau) * gQ x (j + tau)

/-- Closed form of the denominator that `computeNsdf` maintains
incrementally: `m(τ) = Σ_{j=0}^{N-τ-1} x[j]² + Σ_{j=τ}^{N-1} x[j]²`. -/
def mDenom (x : List ℚ) (tau : ℕ) : ℚ := mHead x tau + mTail x tau

/-- The denominator as the spec's §4.2 sentence literally writes it:
`m(τ) = Σ_{j=0}^{N-1} x[j]² + Σ_{j=τ}^{N-1} x[j]²`. Kept separate from
`mDenom` (derived from the source) so the two can be compared. -/
def mSpecSentence (x : List ℚ) (tau : ℕ) : ℚ := sumSq x + mTail x tau

/-- `nsdf(τ) = 2·r(τ)/m(τ)` with the spec-sentence denominator, `0` when the
denominator vanishes. Used only to state what the spec sentence would compute. -/
def nsdfSpecSentence (x : List ℚ) (tau : ℕ) : ℚ :=
  if mSpecSentence x tau = 0 then 0 else 2 * autocorr x tau / mSpecSentence x tau

/-- The value `computeNsdf` stores at lag `tau`, in closed form. -/
def nsdfVal (x : List ℚ) (tau : ℕ) : ℚ :=
  if mDenom x tau = 0 then 0 else 2 * autocorr x tau / mDenom x tau

/-- The main loop of `computeNsdf`: at each lag `tau` the accumulator `m`
first drops the two departing samples (`buffer[tau-1]` and `buffer[n-tau]`,
skipped at `tau = 0`), then `2·r(τ)/m` (or 0) is emitted. -/
def nsdfGo (x : List ℚ) : ℕ → ℚ → ℕ → List ℚ
  | 0, _, _ => []
  | fuel + 1, m, tau =>
    if tau < x.length then
      let m' := if tau = 0 then m
        else m - (gQ x (tau - 1) * gQ x (tau - 1) +
                  gQ x (x.length - tau) * gQ x (x.length - tau))
      (if m' = 0 then 0 else 2 * autocorr x tau / m') :: nsdfGo x fuel m' (tau + 1)
    else []

/-- `computeNsdf` from `tuner.ts`: the accumulator starts at `2·Σ x[j]²`
and the loop runs `tau` from `0` while `tau < n`. -/
def computeNsdf (x : List ℚ) : List ℚ := nsdfGo x x.length (2 * sumSq x) 0

lemma mDenom_zero (x : List ℚ) : mDenom x 0 = 2 * sumSq x := by
  simp only [mDenom, mHead, mTail, sumSq, Nat.sub_zero, Nat.add_zero, two_mul]

lemma mHead_succ (x : List ℚ) (tau : ℕ) (h : tau < x.length) :
    mHead x (tau + 1) = mHead x tau - gQ x (x.length - tau - 1) * gQ x (x.length - tau - 1) := by
  obtain ⟨n, hn⟩ : ∃ n, x.length - tau = n + 1 := ⟨x.length - tau - 1, by omega⟩
  have h1 : x.length - (tau + 1) = n := by omega
  have h2 : x.length - tau - 1 = n := by omega
  rw [mHead, mHead, h1, h2, hn, Finset.sum_range_succ]
  ring

lemma mTail_succ (x : List ℚ) (tau : ℕ) (h : tau < x.length) :
    mTail x (tau + 1) = mTail x tau - gQ x tau * gQ x tau := by
  obtain ⟨n, hn⟩ : ∃ n, x.length - tau = n + 1 := ⟨x.length - tau - 1, by omega⟩
  have h1 : x.length - (tau + 1) = n := by omega
  rw [mTail, mTail, h1, hn, Finset.sum_range_succ']
  have h3 : ∀ j, gQ x (j + 1 + tau) = gQ x (j + (tau + 1)) := by
    intro j; congr 1; omega
  simp only [Nat.zero_add, h3]
  ring

lemma mDenom_succ (x : List ℚ) (tau : ℕ) (h : tau < x.length) :
    mDenom x (tau + 1) =
      mDenom x tau - (gQ x tau * gQ x tau +
        gQ x (x.length - (tau + 1)) * gQ x (x.length - (tau + 1))) := by
  have h2 : x.length - (tau + 1) = x.length - tau - 1 := by omega
  rw [mDenom, mDenom, mHead_succ x tau h, mTail_succ x tau h, h2]
  ring

lemma nsdfGo_eq (x : List ℚ) :
    ∀ fuel tau, x.length ≤ tau + fuel →
      nsdfGo x fuel (mDenom x (tau - 1)) tau =
        (List.range (x.length - tau)).map (fun i => nsdfVal x (tau + i)) := by
  intro fuel
  induction fuel with
  | zero =>
    intro tau hk
    rw [nsdfGo]
    have : x.length - tau = 0 := by omega
    rw [this]
    simp
  | succ fuel ih =>
    intro tau hk
    rw [nsdfGo]
    by_cases hlt : tau < x.length
    · rw [if_pos hlt]
      have hm : (if tau = 0 then mDenom x (tau - 1)
          else mDenom x (tau - 1) -
            (gQ x (tau - 1) * gQ x (tau - 1) +
             gQ x (x.length - tau) * gQ x (x.length - tau))) = mDenom x tau := by
        rcases Nat.eq_zero_or_pos tau with h0 | h1
        -- at `tau = 0` the accumulator is untouched and already `mDenom x 0`
        · subst h0; simp
        · rw [if_neg (by omega)]
          have htau : tau - 1 + 1 = tau := by omega
          have := mDenom_succ x (tau - 1) (by omega)
          rw [htau] at this
          rw [this]
      simp only [hm]
      have hrec : nsdfGo x fuel (mDenom x tau) (tau + 1) =
          (List.range (x.length - (tau + 1))).map (fun i => nsdfVal x (tau + 1 + i)) := by
        have h2 : mDenom x tau = mDenom x (tau + 1 - 1) := by norm_num
        rw [h2]
        exact ih (tau + 1) (by omega)
      rw [hrec]
      obtain ⟨n, hn⟩ : ∃ n, x.length - tau = n + 1 := ⟨x.length - tau - 1, by omega⟩
      have hn' : x.length - (tau + 1) = n := by omega
      rw [hn, hn', List.range_succ_eq_map, List.map_cons, List.map_map]
      refine List.cons_eq_cons.mpr ⟨by simp [nsdfVal], ?_⟩
      apply List.map_congr_left
      intro i _
      simp only [Function.comp_apply]
      congr 1
      omega
    · rw [if_neg hlt]
      have : x.length - tau = 0 := by omega
      rw [this]
      simp

/-- Master closed form: `computeNsdf` agrees at every lag with
`2·r(τ)/m(τ)` for the denominator `mDenom` (with the 0-guard). -/
lemma computeNsdf_eq_map (x : List ℚ) :
    computeNsdf x = (List.range x.length).map (nsdfVal x) := by
  have hm0 : 2 * sumSq x = mDenom x (0 - 1) := by
    rw [(by norm_num : (0 : ℕ) - 1 = 0), mDenom_zero]
  rw [computeNsdf, hm0, nsdfGo_eq x x.length 0 (by omega), Nat.sub_zero]
  apply List.map_congr_left
  intro i _
  simp

lemma computeNsdf_length (x : List ℚ) : (computeNsdf x).length = x.length := by
  rw [computeNsdf_eq_map]; simp

lemma computeNsdf_getD (x : List ℚ) (tau : ℕ) (h : tau < x.length) :
    (computeNsdf x).getD tau 0 = nsdfVal x tau := by
  rw [computeNsdf_eq_map]
  rw [List.getD_eq_getElem?_getD]
  rw [List.getElem?_eq_getElem (by simpa using h)]
  simp

/-- The condition tested by `findFirstNegativeCrossing` at lag `tau`:
the NSDF goes from `≥ 0` at `tau - 1` to `< 0` at `tau`. -/
def isCrossing (nsdf : List ℚ) (tau : ℕ) : Prop :=
  0 ≤ gQ nsdf (tau - 1) ∧ gQ nsdf tau < 0

instance (nsdf : List ℚ) (tau : ℕ) : Decidable (isCrossing nsdf tau) := by
  unfold isCrossing; infer_instance

/-- Scan of `findFirstNegativeCrossing`: from `tau` while `tau < length - 1`,
return the first crossing, else the fallback `minTau`. -/
def ffncGo (nsdf : List ℚ) (minTau : ℕ) : ℕ → ℕ → ℕ
  | 0, _ => minTau
  | fuel + 1, tau =>
    if tau + 1 < nsdf.length then
      if isCrossing nsdf tau then tau
      else ffncGo nsdf minTau fuel (tau + 1)
    else minTau

/-- `findFirstNegativeCrossing` from `tuner.ts`: first sign change of the
NSDF scanning from `tau = 1`, falling back to `minTau`. -/
def findFirstNegativeCrossing (nsdf : List ℚ) (minTau : ℕ) : ℕ :=
  ffncGo nsdf minTau nsdf.length 1

/-- The local-maximum test of `findBestLocalMaximum`: strictly above the
left neighbour, at or above the right neighbour.  (At `tau = 0` the source
reads `nsdf[-1]`, which is `undefined` and makes the `>` comparison false;
here `tau - 1 = 0` makes `gQ nsdf 0 < gQ nsdf 0` false, the same outcome.) -/
def isLocalMax (nsdf : List ℚ) (tau : ℕ) : Prop :=
  gQ nsdf (tau - 1) < gQ nsdf tau ∧ gQ nsdf (tau + 1) ≤ gQ nsdf tau

instance (nsdf : List ℚ) (tau : ℕ) : Decidable (isLocalMax nsdf tau) := by
  unfold isLocalMax; infer_instance


/-- The update step of `findBestLocalMaximum`'s loop: replace the incumbent
`bestTau`/`bestVal` pair when the new value strictly exceeds it (`none` is
the initial `bestTau = -1`/`bestVal = -Infinity` sentinel, which any value
strictly exceeds). -/
def updateBest (best : Option (ℕ × ℚ)) (tau : ℕ) (v : ℚ) : Option (ℕ × ℚ) :=
  match best with
  | none => some (tau, v)
  | some (bt, bv) => if bv < v then some (tau, v) else some (bt, bv)

lemma updateBest_none (tau : ℕ) (v : ℚ) : updateBest none tau v = some (tau, v) := rfl

lemma updateBest_some (bt : ℕ) (bv : ℚ) (tau : ℕ) (v : ℚ) :
    updateBest (some (bt, bv)) tau v =
      if bv < v then some (tau, v) else some (bt, bv) := rfl

/-- Loop of `findBestLocalMaximum`: scan `tau` upward while
`tau < maxTau && tau < nsdf.length - 1`; at each local maximum record it if
it strictly beats the incumbent, and stop at the first local maximum whose
value exceeds 0.8. -/
def fblmGo (nsdf : List ℚ) (maxTau : ℕ) : ℕ → ℕ → Option (ℕ × ℚ) → Option (ℕ × ℚ)
  | 0, _, best => best
  | fuel + 1, tau, best =>
    if tau < maxTau ∧ tau + 1 < nsdf.length then
      if isLocalMax nsdf tau then
        if 4/5 < gQ nsdf tau then updateBest best tau (gQ nsdf tau)
        else fblmGo nsdf maxTau fuel (tau + 1) (updateBest best tau (gQ nsdf tau))
      else fblmGo nsdf maxTau fuel (tau + 1) best
    else best

/-- `findBestLocalMaximum` from `tuner.ts`. -/
def findBestLocalMaximum (nsdf : List ℚ) (startTau maxTau : ℕ) : Option (ℕ × ℚ) :=
  fblmGo nsdf maxTau maxTau startTau none

/-- A lag the key-maximum search considers: inside the window
`[startTau, maxTau) ∩ [0, length - 1)` and a local maximum. -/
def isCand (nsdf : List ℚ) (startTau maxTau tau : ℕ) : Prop :=
  startTau ≤ tau ∧ tau < maxTau ∧ tau + 1 < nsdf.length ∧ isLocalMax nsdf tau

instance (nsdf : List ℚ) (startTau maxTau tau : ℕ) :
    Decidable (isCand nsdf startTau maxTau tau) := by
  unfold isCand; infer_instance

/-- `detectPitch` from `tuner.ts`, over exact rationals.  The RMS gate
`sqrt(Σx²/N) < minRms` is rendered square-free as
`0 < minRms ∧ Σx² < minRms²·N`, which is equivalent for every input
(including `N = 0`, where the source's `NaN < minRms` is false and here
`0 < 0` is false).  `maxTau`/`minTau` clamp `Math.floor` at zero; for
non-positive sample rates the source's search loop runs zero iterations
just as the clamped bounds force here. -/
def detectPitch (buffer : List ℚ) (sampleRate : ℚ) (minRms : ℚ) : Option ℚ :=
  if 0 < minRms ∧ sumSq buffer < minRms ^ 2 * buffer.length then none
  else
    let nsdf := computeNsdf buffer
    let maxTau := (⌊sampleRate / 50⌋).toNat
    let minTau := (⌊sampleRate / 1200⌋).toNat
    let firstNegativeCrossing := findFirstNegativeCrossing nsdf minTau
    match findBestLocalMaximum nsdf firstNegativeCrossing maxTau with
    | none => none
    | some (bestTau, bestVal) =>
      if bestVal < 1/5 then none
      else
        let alpha := gQ nsdf (bestTau - 1)
        let beta := gQ nsdf bestTau
        let gamma := gQ nsdf (bestTau + 1)
        let denom := alpha - 2 * beta + gamma
        let refinedTau : ℚ :=
          if denom = 0 then bestTau else bestTau - (1/2 * (alpha - gamma)) / denom
        some (sampleRate / refinedTau)

lemma ffncGo_no_cross (nsdf : List ℚ) (minTau : ℕ) :
    ∀ fuel tau, (∀ τ, tau ≤ τ → τ + 1 < nsdf.length → ¬ isCrossing nsdf τ) →
      ffncGo nsdf minTau fuel tau = minTau := by
  intro fuel
  induction fuel with
  | zero => intro tau _; rw [ffncGo]
  | succ fuel ih =>
    intro tau hno
    rw [ffncGo]
    by_cases hb : tau + 1 < nsdf.length
    · rw [if_pos hb, if_neg (hno tau le_rfl hb)]
      exact ih (tau + 1) (fun τ h1 h2 => hno τ (by omega) h2)
    · rw [if_neg hb]

lemma ffncGo_finds (nsdf : List ℚ) (minTau : ℕ) :
    ∀ fuel tau τ₀, nsdf.length ≤ tau + fuel → tau ≤ τ₀ → τ₀ + 1 < nsdf.length →
      isCrossing nsdf τ₀ → (∀ τ', tau ≤ τ' → τ' < τ₀ → ¬ isCrossing nsdf τ') →
      ffncGo nsdf minTau fuel tau = τ₀ := by
  intro fuel
  induction fuel with
  | zero => intro tau τ₀ hf h1 h2 _ _; omega
  | succ fuel ih =>
    intro tau τ₀ hf h1 h2 hc hfirst
    rw [ffncGo, if_pos (by omega)]
    rcases Nat.eq_or_lt_of_le h1 with heq | hlt
    · subst heq; rw [if_pos hc]
    · rw [if_neg (hfirst tau le_rfl hlt)]
      exact ih (tau + 1) τ₀ (by omega) (by omega) h2 hc
        (fun τ' ha hb => hfirst τ' (by omega) hb)

lemma fblmGo_ne_none (nsdf : List ℚ) (maxTau : ℕ) :
    ∀ fuel tau p, fblmGo nsdf maxTau fuel tau (some p) ≠ none := by
  intro fuel
  induction fuel with
  | zero => intro tau p; rw [fblmGo]; exact Option.some_ne_none p
  | succ fuel ih =>
    intro tau p
    rw [fblmGo]
    by_cases hb : tau < maxTau ∧ tau + 1 < nsdf.length
    · rw [if_pos hb]
      by_cases hl : isLocalMax nsdf tau
      · rw [if_pos hl]
        obtain ⟨bt, bv⟩ := p
        rw [updateBest_some]
        by_cases hup : bv < gQ nsdf tau
        · rw [if_pos hup]
          by_cases hs : 4/5 < gQ nsdf tau
          · rw [if_pos hs]; exact Option.some_ne_none _
          · rw [if_neg hs]; exact ih (tau + 1) _
        · rw [if_neg hup]
          by_cases hs : 4/5 < gQ nsdf tau
          · rw [if_pos hs]; exact Option.some_ne_none _
          · rw [if_neg hs]; exact ih (tau + 1) _
      · rw [if_neg hl]; exact ih (tau + 1) p
    · rw [if_neg hb]; exact Option.some_ne_none p

lemma fblmGo_none_iff (nsdf : List ℚ) (maxTau : ℕ) :
    ∀ fuel tau, maxTau ≤ tau + fuel →
      (fblmGo nsdf maxTau fuel tau none = none ↔
        ∀ τ, tau ≤ τ → τ < maxTau → τ + 1 < nsdf.length → ¬ isLocalMax nsdf τ) := by
  intro fuel
  induction fuel with
  | zero =>
    intro tau hf
    rw [fblmGo]
    constructor
    · intro _ τ h1 h2 _ _
      omega
    · intro _
      rfl
  | succ fuel ih =>
    intro tau hf
    rw [fblmGo]
    by_cases hb : tau < maxTau ∧ tau + 1 < nsdf.length
    · rw [if_pos hb]
      by_cases hl : isLocalMax nsdf tau
      · rw [if_pos hl, updateBest_none]
        constructor
        · intro hres
          exfalso
          by_cases hs : 4/5 < gQ nsdf tau
          · rw [if_pos hs] at hres; exact Option.some_ne_none _ hres
          · rw [if_neg hs] at hres; exact fblmGo_ne_none nsdf maxTau fuel (tau + 1) _ hres
        · intro hno
          exact absurd hl (hno tau le_rfl hb.1 hb.2)
      · rw [if_neg hl]
        rw [ih (tau + 1) (by omega)]
        constructor
        · intro hno τ h1 h2 h3
          rcases Nat.eq_or_lt_of_le h1 with heq | hlt
          · subst heq; exact hl
          · exact hno τ (by omega) h2 h3
        · intro hno τ h1 h2 h3
          exact hno τ (by omega) h2 h3
    · rw [if_neg hb]
      constructor
      · intro _ τ h1 h2 h3 hl
        rcases Decidable.not_and_iff_or_not.mp hb with hm | hm <;> omega
      · intro _
        rfl

lemma updateBest_origin (best : Option (ℕ × ℚ)) (tau : ℕ) (v : ℚ) :
    updateBest best tau v = some (tau, v) ∨ updateBest best tau v = best := by
  rcases best with _ | ⟨bt, bv⟩
  · exact Or.inl (updateBest_none tau v)
  · rw [updateBest_some]
    by_cases hup : bv < v
    · rw [if_pos hup]; exact Or.inl rfl
    · rw [if_neg hup]; exact Or.inr rfl

lemma fblmGo_some_origin (nsdf : List ℚ) (maxTau : ℕ) :
    ∀ fuel tau best τ v, fblmGo nsdf maxTau fuel tau best = some (τ, v) →
      best = some (τ, v) ∨
        (tau ≤ τ ∧ τ < maxTau ∧ τ + 1 < nsdf.length ∧ isLocalMax nsdf τ ∧ v = gQ nsdf τ) := by
  intro fuel
  induction fuel with
  | zero =>
    intro tau best τ v h
    rw [fblmGo] at h
    exact Or.inl h
  | succ fuel ih =>
    intro tau best τ v h
    rw [fblmGo] at h
    by_cases hb : tau < maxTau ∧ tau + 1 < nsdf.length
    · rw [if_pos hb] at h
      by_cases hl : isLocalMax nsdf tau
      · rw [if_pos hl] at h
        have hcase : ∀ hres : updateBest best tau (gQ nsdf tau) = some (τ, v),
            best = some (τ, v) ∨
              (tau ≤ τ ∧ τ < maxTau ∧ τ + 1 < nsdf.length ∧ isLocalMax nsdf τ ∧ v = gQ nsdf τ) := by
          intro hres
          rcases updateBest_origin best tau (gQ nsdf tau) with he | he
          · rw [he] at hres
            obtain ⟨h1, h2⟩ := Prod.mk.inj (Option.some_inj.mp hres.symm)
            subst h1
            exact Or.inr ⟨le_rfl, hb.1, hb.2, hl, h2⟩
          · rw [he] at hres
            exact Or.inl hres
        by_cases hs : 4/5 < gQ nsdf tau
        · rw [if_pos hs] at h
          exact hcase h
        · rw [if_neg hs] at h
          rcases ih (tau + 1) _ τ v h with hleft | hright
          · exact hcase hleft
          · exact Or.inr ⟨by omega, hright.2.1, hright.2.2.1, hright.2.2.2.1, hright.2.2.2.2⟩
      · rw [if_neg hl] at h
        rcases ih (tau + 1) best τ v h with hleft | hright
        · exact Or.inl hleft
        · exact Or.inr ⟨by omega, hright.2.1, hright.2.2.1, hright.2.2.2.1, hright.2.2.2.2⟩
    · rw [if_neg hb] at h
      exact Or.inl h

lemma updateBest_val_le (best : Option (ℕ × ℚ)) (tau : ℕ) (v c : ℚ)
    (hv : v ≤ c) (hb : ∀ bt bv, best = some (bt, bv) → bv ≤ c) :
    ∀ bt bv, updateBest best tau v = some (bt, bv) → bv ≤ c := by
  intro bt bv hub
  rcases updateBest_origin best tau v with he | he
  · rw [he] at hub
    obtain ⟨_, h2⟩ := Prod.mk.inj (Option.some_inj.mp hub)
    exact h2 ▸ hv
  · rw [he] at hub
    exact hb bt bv hub

lemma updateBest_idx_lt (best : Option (ℕ × ℚ)) (tau : ℕ) (v : ℚ) (n : ℕ)
    (htau : tau < n) (hb : ∀ bt bv, best = some (bt, bv) → bt < n) :
    ∀ bt bv, updateBest best tau v = some (bt, bv) → bt < n := by
  intro bt bv hub
  rcases updateBest_origin best tau v with he | he
  · rw [he] at hub
    obtain ⟨h1, _⟩ := Prod.mk.inj (Option.some_inj.mp hub)
    exact h1 ▸ htau
  · rw [he] at hub
    exact hb bt bv hub

lemma updateBest_isSome (best : Option (ℕ × ℚ)) (tau : ℕ) (v : ℚ) :
    ∃ bt bv, updateBest best tau v = some (bt, bv) ∧ v ≤ bv := by
  rcases best with _ | ⟨bt0, bv0⟩
  · exact ⟨tau, v, updateBest_none tau v, le_rfl⟩
  · rw [updateBest_some]
    by_cases hup : bv0 < v
    · exact ⟨tau, v, by rw [if_pos hup], le_rfl⟩
    · exact ⟨bt0, bv0, by rw [if_neg hup], not_lt.mp hup⟩

lemma fblmGo_first_strong (nsdf : List ℚ) (maxTau : ℕ) :
    ∀ fuel tau best τ₀,
      maxTau ≤ tau + fuel →
      tau ≤ τ₀ → τ₀ < maxTau → τ₀ + 1 < nsdf.length → isLocalMax nsdf τ₀ →
      4/5 < gQ nsdf τ₀ →
      (∀ τ', tau ≤ τ' → τ' < τ₀ → τ' < maxTau → τ' + 1 < nsdf.length →
        isLocalMax nsdf τ' → gQ nsdf τ' ≤ 4/5) →
      (∀ bt bv, best = some (bt, bv) → bv ≤ 4/5) →
      fblmGo nsdf maxTau fuel tau best = some (τ₀, gQ nsdf τ₀) := by
  intro fuel
  induction fuel with
  | zero =>
    intro tau best τ₀ hf h1 h2 _ _ _ _ _
    omega
  | succ fuel ih =>
    intro tau best τ₀ hf h1 h2 h3 hl0 hs0 hweak hbest
    have hb : tau < maxTau ∧ tau + 1 < nsdf.length := ⟨by omega, by omega⟩
    rw [fblmGo, if_pos hb]
    rcases Nat.eq_or_lt_of_le h1 with heq | hlt
    · subst heq
      rw [if_pos hl0, if_pos hs0]
      rcases best with _ | ⟨bt, bv⟩
      · rw [updateBest_none]
      · rw [updateBest_some, if_pos (lt_of_le_of_lt (hbest bt bv rfl) hs0)]
    · by_cases hl : isLocalMax nsdf tau
      · have hwtau : gQ nsdf tau ≤ 4/5 := hweak tau le_rfl hlt hb.1 hb.2 hl
        rw [if_pos hl, if_neg (not_lt.mpr hwtau)]
        exact ih (tau + 1) _ τ₀ (by omega) (by omega) h2 h3 hl0 hs0
          (fun τ' ha hb' hc hd he => hweak τ' (by omega) hb' hc hd he)
          (updateBest_val_le best tau _ (4/5) hwtau hbest)
      · rw [if_neg hl]
        exact ih (tau + 1) best τ₀ (by omega) (by omega) h2 h3 hl0 hs0
          (fun τ' ha hb' hc hd he => hweak τ' (by omega) hb' hc hd he) hbest

lemma fblmGo_no_strong (nsdf : List ℚ) (maxTau : ℕ) :
    ∀ fuel tau best,
      maxTau ≤ tau + fuel →
      (∀ τ', tau ≤ τ' → τ' < maxTau → τ' + 1 < nsdf.length →
        isLocalMax nsdf τ' → gQ nsdf τ' ≤ 4/5) →
      (∀ bt bv, best = some (bt, bv) → bt < tau) →
      ∀ τ v, fblmGo nsdf maxTau fuel tau best = some (τ, v) →
        (∀ τ', tau ≤ τ' → τ' < maxTau → τ' + 1 < nsdf.length →
          isLocalMax nsdf τ' → gQ nsdf τ' ≤ v) ∧
        (∀ τ', tau ≤ τ' → τ' < τ → τ' < maxTau → τ' + 1 < nsdf.length →
          isLocalMax nsdf τ' → gQ nsdf τ' < v) ∧
        (∀ bt bv, best = some (bt, bv) → bv ≤ v ∧ (bt ≠ τ → bv < v)) := by
  intro fuel
  induction fuel with
  | zero =>
    intro tau best hf hweak hidx τ v h
    rw [fblmGo] at h
    refine ⟨fun τ' h1 h2 _ _ => by omega, fun τ' h1 _ h2 _ _ => by omega, ?_⟩
    intro bt bv hbv
    rw [h] at hbv
    obtain ⟨h1, h2⟩ := Prod.mk.inj (Option.some_inj.mp hbv.symm)
    exact ⟨le_of_eq h2, fun hne => absurd h1 hne⟩
  | succ fuel ih =>
    intro tau best hf hweak hidx τ v h
    rw [fblmGo] at h
    by_cases hb : tau < maxTau ∧ tau + 1 < nsdf.length
    · rw [if_pos hb] at h
      by_cases hl : isLocalMax nsdf tau
      · have hwtau : gQ nsdf tau ≤ 4/5 := hweak tau le_rfl hb.1 hb.2 hl
        rw [if_pos hl, if_neg (not_lt.mpr hwtau)] at h
        have hih := ih (tau + 1) (updateBest best tau (gQ nsdf tau)) (by omega)
          (fun τ' ha hb' hc hd => hweak τ' (by omega) hb' hc hd)
          (updateBest_idx_lt best tau _ (tau + 1) (by omega)
            (fun bt bv hbv => by have := hidx bt bv hbv; omega))
          τ v h
        obtain ⟨ha', hb', hc'⟩ := hih
        obtain ⟨bt', bv', hub, hvle⟩ := updateBest_isSome best tau (gQ nsdf tau)
        have hcub := hc' bt' bv' hub
        refine ⟨?_, ?_, ?_⟩
        · intro τ' h1 h2 h3 h4
          rcases Nat.eq_or_lt_of_le h1 with heq | hlt2
          · subst heq
            exact le_trans hvle hcub.1
          · exact ha' τ' (by omega) h2 h3 h4
        · intro τ' h1 hlt2 h2 h3 h4
          rcases Nat.eq_or_lt_of_le h1 with heq | hlt3
          · subst heq
            rcases updateBest_origin best tau (gQ nsdf tau) with he | he
            · rw [he] at hub
              obtain ⟨he1, he2⟩ := Prod.mk.inj (Option.some_inj.mp hub)
              have hbt' : bt' ≠ τ := by omega
              have hvlt := hcub.2 hbt'
              rw [he2]
              exact hvlt
            · rcases hbe : best with _ | ⟨bt0, bv0⟩
              · rw [hbe, updateBest_none] at he
                exact absurd he (Option.some_ne_none _)
              · rw [hbe] at he hub
                rw [he] at hub
                have hidx0 := hidx bt0 bv0 hbe
                obtain ⟨he1, he2⟩ := Prod.mk.inj (Option.some_inj.mp hub)
                have hbt' : bt' ≠ τ := by omega
                have hvlt := hcub.2 hbt'
                exact lt_of_le_of_lt hvle hvlt
          · exact hb' τ' (by omega) hlt2 h2 h3 h4
        · intro bt0 bv0 h0
          subst h0
          rw [updateBest_some] at hub
          by_cases hup : bv0 < gQ nsdf tau
          · rw [if_pos hup] at hub
            obtain ⟨he1, he2⟩ := Prod.mk.inj (Option.some_inj.mp hub)
            rw [he2] at hup
            exact ⟨le_of_lt (lt_of_lt_of_le hup hcub.1),
              fun _ => lt_of_lt_of_le hup hcub.1⟩
          · rw [if_neg hup] at hub
            obtain ⟨he1, he2⟩ := Prod.mk.inj (Option.some_inj.mp hub)
            subst he1
            subst he2
            exact hcub
      · rw [if_neg hl] at h
        have hih := ih (tau + 1) best (by omega)
          (fun τ' ha hb' hc hd => hweak τ' (by omega) hb' hc hd)
          (fun bt bv hbv => by have := hidx bt bv hbv; omega)
          τ v h
        obtain ⟨ha', hb', hc'⟩ := hih
        refine ⟨?_, ?_, hc'⟩
        · intro τ' h1 h2 h3 h4
          rcases Nat.eq_or_lt_of_le h1 with heq | hlt2
          · subst heq
            exact absurd h4 hl
          · exact ha' τ' (by omega) h2 h3 h4
        · intro τ' h1 hlt2 h2 h3 h4
          rcases Nat.eq_or_lt_of_le h1 with heq | hlt3
          · subst heq
            exact absurd h4 hl
          · exact hb' τ' (by omega) hlt2 h2 h3 h4
    · rw [if_neg hb] at h
      refine ⟨?_, ?_, ?_⟩
      · intro τ' h1 h2 h3 _
        rcases Decidable.not_and_iff_or_not.mp hb with hm | hm <;> omega
      · intro τ' h1 _ h2 h3 _
        rcases Decidable.not_and_iff_or_not.mp hb with hm | hm <;> omega
      · intro bt bv hbv
        rw [h] at hbv
        obtain ⟨h1, h2⟩ := Prod.mk.inj (Option.some_inj.mp hbv.symm)
        exact ⟨le_of_eq h2, fun hne => absurd h1 hne⟩

lemma fblm_none_iff (nsdf : List ℚ) (startTau maxTau : ℕ) :
    findBestLocalMaximum nsdf startTau maxTau = none ↔
      ∀ τ, ¬ isCand nsdf startTau maxTau τ := by
  rw [findBestLocalMaximum, fblmGo_none_iff nsdf maxTau maxTau startTau (by omega)]
  constructor
  · intro hno τ hc
    exact hno τ hc.1 hc.2.1 hc.2.2.1 hc.2.2.2
  · intro hno τ h1 h2 h3 hl
    exact hno τ ⟨h1, h2, h3, hl⟩

lemma fblm_some (nsdf : List ℚ) (startTau maxTau τ : ℕ) (v : ℚ)
    (h : findBestLocalMaximum nsdf startTau maxTau = some (τ, v)) :
    isCand nsdf startTau maxTau τ ∧ v = gQ nsdf τ := by
  rcases fblmGo_some_origin nsdf maxTau maxTau startTau none τ v h with hleft | hright
  · exact absurd hleft.symm (Option.some_ne_none _)
  · exact ⟨⟨hright.1, hright.2.1, hright.2.2.1, hright.2.2.2.1⟩, hright.2.2.2.2⟩

lemma fblm_first_strong (nsdf : List ℚ) (startTau maxTau τ₀ : ℕ)
    (hc : isCand nsdf startTau maxTau τ₀) (hs : 4/5 < gQ nsdf τ₀)
    (hfirst : ∀ τ', τ' < τ₀ → isCand nsdf startTau maxTau τ' → gQ nsdf τ' ≤ 4/5) :
    findBestLocalMaximum nsdf startTau maxTau = some (τ₀, gQ nsdf τ₀) := by
  apply fblmGo_first_strong nsdf maxTau maxTau startTau none τ₀ (by omega)
    hc.1 hc.2.1 hc.2.2.1 hc.2.2.2 hs
  · intro τ' ha hb hcc hd he
    exact hfirst τ' hb ⟨ha, hcc, hd, he⟩
  · intro bt bv hbv
    exact absurd hbv (Option.noConfusion)

lemma fblm_no_strong (nsdf : List ℚ) (startTau maxTau : ℕ)
    (hweak : ∀ τ', isCand nsdf startTau maxTau τ' → gQ nsdf τ' ≤ 4/5) :
    ∀ τ v, findBestLocalMaximum nsdf startTau maxTau = some (τ, v) →
      (∀ τ', isCand nsdf startTau maxTau τ' → gQ nsdf τ' ≤ v) ∧
      (∀ τ', τ' < τ → isCand nsdf startTau maxTau τ' → gQ nsdf τ' < v) := by
  intro τ v h
  have := fblmGo_no_strong nsdf maxTau maxTau startTau none (by omega)
    (fun τ' ha hb hcc hd => hweak τ' ⟨ha, hb, hcc, hd⟩)
    (fun bt bv hbv => absurd hbv (Option.noConfusion)) τ v h
  exact ⟨fun τ' hc => this.1 τ' hc.1 hc.2.1 hc.2.2.1 hc.2.2.2,
    fun τ' hlt hc => this.2.1 τ' hc.1 hlt hc.2.1 hc.2.2.1 hc.2.2.2⟩

lemma isLocalMax_one_le (nsdf : List ℚ) (τ : ℕ) (h : isLocalMax nsdf τ) : 1 ≤ τ := by
  by_contra hcon
  have h0 : τ = 0 := by omega
  subst h0
  exact absurd h.1 (by norm_num)

lemma isLocalMax_denom_neg (nsdf : List ℚ) (τ : ℕ) (h : isLocalMax nsdf τ) :
    gQ nsdf (τ - 1) - 2 * gQ nsdf τ + gQ nsdf (τ + 1) < 0 := by
  obtain ⟨h1, h2⟩ := h
  linarith

lemma parabola_offset_bound (a b c : ℚ) (h1 : a < b) (h2 : c ≤ b) :
    |(1/2 * (a - c)) / (a - 2 * b + c)| ≤ 1/2 := by
  have hd : a - 2 * b + c < 0 := by linarith
  rw [abs_le]
  constructor
  · rw [le_div_iff_of_neg hd]
    nlinarith
  · rw [div_le_iff_of_neg hd]
    nlinarith

/-- The fixed chromatic note table `NOTE_NAMES` from `tuner.ts`. -/
def NOTE_NAMES : List String :=
  ["C", "C♯", "D", "D♯", "E", "F", "F♯", "G", "G♯", "A", "A♯", "B"]

/-- JavaScript's `Math.round`: the floor of `x + 1/2` (halves round up). -/
noncomputable def jsRound (x : ℝ) : ℤ := ⌊x + 1/2⌋

/-- `frequencyToMidiExact` from `tuner.ts`: `12·log2(hz/440) + 69`. -/
noncomputable def frequencyToMidiExact (hz : ℝ) : ℝ :=
  12 * Real.logb 2 (hz / 440) + 69

/-- `midiToFrequency` from `tuner.ts`: `440·2^((midi-69)/12)`. -/
noncomputable def midiToFrequency (midi : ℝ) : ℝ :=
  440 * (2 : ℝ) ^ ((midi - 69) / 12)

/-- The note-table index `((midiRounded % 12) + 12) % 12`, with JavaScript's
`%` (remainder with the dividend's sign, i.e. `Int.tmod`). -/
def noteIndexOf (midiRounded : ℤ) : ℤ :=
  (midiRounded.tmod 12 + 12).tmod 12

/-- Result record of `analyseFrequency` (`TunerResult` without `frequency`). -/
structure AnalysedPitch where
  note : String
  octave : ℤ
  cents : ℤ
  targetFrequency : ℝ

/-- `analyseFrequency` from `tuner.ts`.  `Math.floor(midiRounded / 12)` is
flooring division of integers, `Int.fdiv`. -/
noncomputable def analyseFrequency (hz : ℝ) : AnalysedPitch :=
  let midiExact := frequencyToMidiExact hz
  let midiRounded := jsRound midiExact
  let cents := jsRound ((midiExact - midiRounded) * 100)
  let noteIndex := noteIndexOf midiRounded
  { note := NOTE_NAMES.getD noteIndex.toNat "?"
    octave := Int.fdiv midiRounded 12 - 1
    cents := cents
    targetFrequency := midiToFrequency midiRounded }

lemma tmod_twelve_lower (a : ℤ) : -12 < a.tmod 12 := by
  rcases a with m | m
  · have h := @Int.tmod_nonneg (Int.ofNat m) 12 (Int.ofNat_nonneg m)
    omega
  · have hr : (Int.negSucc m).tmod 12 = -(((m + 1) % 12 : ℕ) : ℤ) := rfl
    have hm : (m + 1) % 12 < 12 := Nat.mod_lt _ (by norm_num)
    rw [hr]
    omega

lemma noteIndexOf_bounds (a : ℤ) : 0 ≤ noteIndexOf a ∧ noteIndexOf a < 12 := by
  have h1 := tmod_twelve_lower a
  have h2 := Int.tmod_lt_of_pos a (by norm_num : (0:ℤ) < 12)
  have hnn : (0:ℤ) ≤ a.tmod 12 + 12 := by omega
  have he : (a.tmod 12 + 12).tmod 12 = (a.tmod 12 + 12) % 12 :=
    Int.tmod_eq_emod hnn (by norm_num)
  rw [noteIndexOf, he]
  exact ⟨Int.emod_nonneg _ (by norm_num), Int.emod_lt_of_pos _ (by norm_num)⟩

lemma jsRound_sub_bounds (x : ℝ) :
    -(1/2) ≤ x - jsRound x ∧ x - jsRound x < 1/2 := by
  unfold jsRound
  have h1 := Int.floor_le (x + 1/2)
  have h2 := Int.lt_floor_add_one (x + 1/2)
  push_cast at h1 h2 ⊢
  constructor <;> linarith

lemma cents_bounds (m : ℝ) :
    -50 ≤ jsRound ((m - jsRound m) * 100) ∧ jsRound ((m - jsRound m) * 100) ≤ 50 := by
  obtain ⟨hlo, hhi⟩ := jsRound_sub_bounds m
  constructor
  · apply Int.le_floor.mpr
    push_cast
    linarith
  · have : jsRound ((m - jsRound m) * 100) < 51 := by
      apply Int.floor_lt.mpr
      push_cast
      linarith
    omega

/-- C1, counterexample: on the buffer `[1, 1]` at lag `τ = 1`, `computeNsdf`
stores `1`, while the spec sentence's denominator
`m(τ) = Σ_{j=0}^{N-1} x[j]² + Σ_{j=τ}^{N-1} x[j]²` would give `2·1/3 = 2/3`.
The code subtracts departing samples from both ends of the overlap, the
spec sentence only from one. -/
theorem computeNsdf_spec_denominator_cex :
    (computeNsdf [(1:ℚ), 1]).getD 1 0 ≠ nsdfSpecSentence [(1:ℚ), 1] 1 := by
  norm_num [computeNsdf, nsdfGo, sumSq, autocorr, gQ, nsdfSpecSentence,
    mSpecSentence, mTail, Finset.sum_range_succ]

/-- C1, amended: for every buffer and every lag `τ < N`, the NSDF value
computed by `computeNsdf` equals `2·r(τ)/m(τ)` with
`r(τ) = Σ_{j=0}^{N-τ-1} x[j]·x[j+τ]` and the denominator
`m(τ) = Σ_{j=0}^{N-τ-1} x[j]² + Σ_{j=τ}^{N-1} x[j]²` (0 substituted when
`m(τ) = 0`). -/
theorem computeNsdf_closed_form (x : List ℚ) (tau : ℕ) (h : tau < x.length) :
    (computeNsdf x).getD tau 0 =
      if mHead x tau + mTail x tau = 0 then 0
      else 2 * autocorr x tau / (mHead x tau + mTail x tau) := by
  rw [computeNsdf_getD x tau h, nsdfVal, mDenom]

/-- Witness for `computeNsdf_closed_form` at the buffer `[1, 1]`, lag 1. -/
theorem computeNsdf_closed_form_witness :
    (computeNsdf [(1:ℚ), 1]).getD 1 0 =
      if mHead [(1:ℚ), 1] 1 + mTail [(1:ℚ), 1] 1 = 0 then 0
      else 2 * autocorr [(1:ℚ), 1] 1 / (mHead [(1:ℚ), 1] 1 + mTail [(1:ℚ), 1] 1) :=
  computeNsdf_closed_form [(1:ℚ), 1] 1 (by decide)

lemma mDenom_nonneg (x : List ℚ) (tau : ℕ) : 0 ≤ mDenom x tau := by
  rw [mDenom, mHead, mTail]
  exact add_nonneg (Finset.sum_nonneg fun j _ => mul_self_nonneg _)
    (Finset.sum_nonneg fun j _ => mul_self_nonneg _)

lemma mDenom_sub_two_autocorr_nonneg (x : List ℚ) (tau : ℕ) :
    0 ≤ mDenom x tau - 2 * autocorr x tau := by
  rw [mDenom, mHead, mTail, autocorr, Finset.mul_sum, ← Finset.sum_add_distrib,
    ← Finset.sum_sub_distrib]
  apply Finset.sum_nonneg
  intro j _
  nlinarith [sq_nonneg (gQ x j - gQ x (j + tau))]

lemma mDenom_add_two_autocorr_nonneg (x : List ℚ) (tau : ℕ) :
    0 ≤ mDenom x tau + 2 * autocorr x tau := by
  rw [mDenom, mHead, mTail, autocorr, Finset.mul_sum, ← Finset.sum_add_distrib,
    ← Finset.sum_add_distrib]
  apply Finset.sum_nonneg
  intro j _
  nlinarith [sq_nonneg (gQ x j + gQ x (j + tau))]

lemma nsdfVal_bounds (x : List ℚ) (tau : ℕ) :
    -1 ≤ nsdfVal x tau ∧ nsdfVal x tau ≤ 1 := by
  rw [nsdfVal]
  by_cases h0 : mDenom x tau = 0
  · rw [if_pos h0]
    norm_num
  · rw [if_neg h0]
    have hpos : 0 < mDenom x tau :=
      lt_of_le_of_ne (mDenom_nonneg x tau) (Ne.symm h0)
    have h1 := mDenom_sub_two_autocorr_nonneg x tau
    have h2 := mDenom_add_two_autocorr_nonneg x tau
    constructor
    · rw [le_div_iff₀ hpos]
      linarith
    · rw [div_le_one hpos]
      linarith

/-- C4: every element of the array returned by `computeNsdf` lies in the
closed interval `[-1, 1]` (over exact arithmetic). -/
theorem computeNsdf_mem_unit_interval (x : List ℚ) (v : ℚ)
    (hv : v ∈ computeNsdf x) : -1 ≤ v ∧ v ≤ 1 := by
  rw [computeNsdf_eq_map] at hv
  obtain ⟨tau, _, rfl⟩ := List.mem_map.mp hv
  exact nsdfVal_bounds x tau

/-- Witness for `computeNsdf_mem_unit_interval` on the buffer `[1]`. -/
theorem computeNsdf_mem_unit_interval_witness : -1 ≤ (1:ℚ) ∧ (1:ℚ) ≤ 1 :=
  computeNsdf_mem_unit_interval [(1:ℚ)] 1
    (by norm_num [computeNsdf, nsdfGo, sumSq, autocorr, gQ, Finset.sum_range_succ])

/-- C7: for every buffer with non-zero energy, the NSDF value at lag
`τ = 0` equals exactly 1. -/
theorem computeNsdf_at_zero_lag (x : List ℚ) (h : sumSq x ≠ 0) :
    (computeNsdf x).getD 0 0 = 1 := by
  have hlen : 0 < x.length := by
    by_contra hc
    have hnil : x = [] := List.eq_nil_of_length_eq_zero (by omega)
    subst hnil
    exact h (by simp [sumSq])
  rw [computeNsdf_getD x 0 hlen, nsdfVal, mDenom_zero]
  have hr : autocorr x 0 = sumSq x := by
    rw [autocorr, sumSq, Nat.sub_zero]
    exact Finset.sum_congr rfl (fun j _ => by rw [Nat.add_zero])
  rw [hr, if_neg (by intro hc; exact h (by linarith))]
  field_simp

/-- Witness for `computeNsdf_at_zero_lag` on the buffer `[1]`. -/
theorem computeNsdf_at_zero_lag_witness : (computeNsdf [(1:ℚ)]).getD 0 0 = 1 :=
  computeNsdf_at_zero_lag [(1:ℚ)]
    (by norm_num [sumSq, gQ, Finset.sum_range_succ])

/-- C2: `detectPitch` reports "no estimate" (`none`) exactly when the RMS
gate fails, or no local maximum exists in the search window, or the best
local maximum's NSDF value is below 0.2; otherwise it returns a frequency.
(As a total function of its inputs it raises no exception and the guarded
divisions never fault.) -/
theorem detectPitch_none_iff (buffer : List ℚ) (sampleRate minRms : ℚ) :
    detectPitch buffer sampleRate minRms = none ↔
      (0 < minRms ∧ sumSq buffer < minRms ^ 2 * buffer.length) ∨
      (∀ τ, ¬ isCand (computeNsdf buffer)
          (findFirstNegativeCrossing (computeNsdf buffer) (⌊sampleRate / 1200⌋).toNat)
          (⌊sampleRate / 50⌋).toNat τ) ∨
      (∃ τ v, findBestLocalMaximum (computeNsdf buffer)
          (findFirstNegativeCrossing (computeNsdf buffer) (⌊sampleRate / 1200⌋).toNat)
          (⌊sampleRate / 50⌋).toNat = some (τ, v) ∧ v < 1/5) := by
  unfold detectPitch
  by_cases hgate : 0 < minRms ∧ sumSq buffer < minRms ^ 2 * buffer.length
  · rw [if_pos hgate]
    exact iff_of_true rfl (Or.inl hgate)
  · rw [if_neg hgate]
    simp only []
    rcases hres : findBestLocalMaximum (computeNsdf buffer)
        (findFirstNegativeCrossing (computeNsdf buffer) (⌊sampleRate / 1200⌋).toNat)
        (⌊sampleRate / 50⌋).toNat with _ | ⟨bestTau, bestVal⟩
    · apply iff_of_true rfl
      exact Or.inr (Or.inl ((fblm_none_iff _ _ _).mp hres))
    · simp only []
      by_cases hv : bestVal < 1/5
      · rw [if_pos hv]
        exact iff_of_true rfl (Or.inr (Or.inr ⟨bestTau, bestVal, rfl, hv⟩))
      · rw [if_neg hv]
        apply iff_of_false (Option.some_ne_none _)
        rintro (hc | hc | hc)
        · exact hgate hc
        · rw [(fblm_none_iff _ _ _).mpr hc] at hres
          exact Option.noConfusion hres
        · obtain ⟨τ, v, heq, hlt⟩ := hc
          obtain ⟨h1, h2⟩ := Prod.mk.inj (Option.some_inj.mp heq)
          exact hv (h2 ▸ hlt)

/-- C3, counterexample: on the NSDF array `[1, 1, 1, 1, -1, 0]` with
`minTau = 2`, no crossing exists before the minimum lag (the only scanned
lag below it, `τ = 1`, is not a crossing), yet the search start is the
later first crossing `4`, not the fallback `minTau = 2`: the code falls
back to `minTau` only when no crossing exists anywhere in `[1, N-2]`. -/
theorem firstNegativeCrossing_fallback_cex :
    ¬ isCrossing [(1:ℚ), 1, 1, 1, -1, 0] 1 ∧
    findFirstNegativeCrossing [(1:ℚ), 1, 1, 1, -1, 0] 2 = 4 ∧ (4 : ℕ) ≠ 2 := by
  refine ⟨?_, ?_, by norm_num⟩
  · norm_num [isCrossing, gQ]
  · norm_num [findFirstNegativeCrossing, ffncGo, isCrossing, gQ]

/-- C3, amended: the key-maximum search starts at the first lag
`τ ∈ [1, N-2]` where the NSDF transitions from `≥ 0` to `< 0`, and falls
back to the configured minimum lag exactly when no such crossing exists
anywhere in that scanned range (not merely before the minimum lag). -/
theorem firstNegativeCrossing_spec (nsdf : List ℚ) (minTau : ℕ) :
    (∀ τ₀, 1 ≤ τ₀ → τ₀ + 1 < nsdf.length → isCrossing nsdf τ₀ →
      (∀ τ', 1 ≤ τ' → τ' < τ₀ → ¬ isCrossing nsdf τ') →
      findFirstNegativeCrossing nsdf minTau = τ₀) ∧
    ((∀ τ, 1 ≤ τ → τ + 1 < nsdf.length → ¬ isCrossing nsdf τ) →
      findFirstNegativeCrossing nsdf minTau = minTau) := by
  constructor
  · intro τ₀ h1 h2 hc hfirst
    exact ffncGo_finds nsdf minTau nsdf.length 1 τ₀ (by omega) h1 h2 hc
      (fun τ' ha hb => hfirst τ' ha hb)
  · intro hno
    exact ffncGo_no_cross nsdf minTau nsdf.length 1 (fun τ ha hb => hno τ ha hb)

/-- Witness for `firstNegativeCrossing_spec`: on `[1, 1]` (no crossing at
all) the fallback `minTau = 5` is returned. -/
theorem firstNegativeCrossing_spec_witness :
    findFirstNegativeCrossing [(1:ℚ), 1] 5 = 5 :=
  (firstNegativeCrossing_spec [(1:ℚ), 1] 5).2
    (fun τ h1 h2 => absurd h2 (by simp only [List.length_cons, List.length_nil]; omega))

/-- C5: the peak selector considers exactly the local maxima (strictly
above the left neighbour, at or above the right) in the window from the
search start up to the maximum lag; it selects the first local maximum
exceeding 0.8, stopping there; when no local maximum exceeds 0.8 it
selects the tallest, the first occurrence winning exact ties; it returns
nothing exactly when the window holds no local maximum. -/
theorem findBestLocalMaximum_spec (nsdf : List ℚ) (startTau maxTau : ℕ) :
    (∀ τ₀, isCand nsdf startTau maxTau τ₀ → 4/5 < gQ nsdf τ₀ →
      (∀ τ', τ' < τ₀ → isCand nsdf startTau maxTau τ' → gQ nsdf τ' ≤ 4/5) →
      findBestLocalMaximum nsdf startTau maxTau = some (τ₀, gQ nsdf τ₀)) ∧
    (findBestLocalMaximum nsdf startTau maxTau = none ↔
      ∀ τ, ¬ isCand nsdf startTau maxTau τ) ∧
    (∀ τ v, findBestLocalMaximum nsdf startTau maxTau = some (τ, v) →
      isCand nsdf startTau maxTau τ ∧ v = gQ nsdf τ) ∧
    ((∀ τ', isCand nsdf startTau maxTau τ' → gQ nsdf τ' ≤ 4/5) →
      ∀ τ v, findBestLocalMaximum nsdf startTau maxTau = some (τ, v) →
        (∀ τ', isCand nsdf startTau maxTau τ' → gQ nsdf τ' ≤ v) ∧
        (∀ τ', τ' < τ → isCand nsdf startTau maxTau τ' → gQ nsdf τ' < v)) :=
  ⟨fun τ₀ hc hs hf => fblm_first_strong nsdf startTau maxTau τ₀ hc hs hf,
   fblm_none_iff nsdf startTau maxTau,
   fun τ v h => fblm_some nsdf startTau maxTau τ v h,
   fun hw τ v h => fblm_no_strong nsdf startTau maxTau hw τ v h⟩

/-- Witness for `findBestLocalMaximum_spec`: on `[0, 1, 0]` with window
`[1, 5)` the single (strong) local maximum at `τ = 1` is selected. -/
theorem findBestLocalMaximum_spec_witness :
    findBestLocalMaximum [(0:ℚ), 1, 0] 1 5 = some (1, 1) := by
  have h := (findBestLocalMaximum_spec [(0:ℚ), 1, 0] 1 5).1 1
    (by refine ⟨le_rfl, by norm_num, by norm_num, ?_⟩; norm_num [isLocalMax, gQ])
    (by norm_num [gQ])
    (fun τ' hlt hc => absurd hc.1 (by omega))
  have hg : gQ [(0:ℚ), 1, 0] 1 = 1 := by norm_num [gQ]
  rw [hg] at h
  exact h

/-- C6: whenever `detectPitch` returns an estimate, it is strictly
positive (for a positive sample rate); the selected lag `τ ≥ 1` is a local
maximum, the parabolic denominator `α - 2β + γ` is strictly negative, the
interpolation offset has absolute value at most 1/2, the refined lag
`τ - offset` is at least 1/2, and the estimate is
`sampleRate / (τ - offset)`. -/
theorem detectPitch_some_pos (buffer : List ℚ) (sampleRate minRms f : ℚ)
    (hsr : 0 < sampleRate) (h : detectPitch buffer sampleRate minRms = some f) :
    0 < f ∧
    ∃ τ v, findBestLocalMaximum (computeNsdf buffer)
        (findFirstNegativeCrossing (computeNsdf buffer) (⌊sampleRate / 1200⌋).toNat)
        (⌊sampleRate / 50⌋).toNat = some (τ, v) ∧
      1 ≤ τ ∧ isLocalMax (computeNsdf buffer) τ ∧
      gQ (computeNsdf buffer) (τ - 1) - 2 * gQ (computeNsdf buffer) τ +
        gQ (computeNsdf buffer) (τ + 1) < 0 ∧
      |(1/2 * (gQ (computeNsdf buffer) (τ - 1) - gQ (computeNsdf buffer) (τ + 1))) /
          (gQ (computeNsdf buffer) (τ - 1) - 2 * gQ (computeNsdf buffer) τ +
            gQ (computeNsdf buffer) (τ + 1))| ≤ 1/2 ∧
      1/2 ≤ (τ : ℚ) -
        (1/2 * (gQ (computeNsdf buffer) (τ - 1) - gQ (computeNsdf buffer) (τ + 1))) /
          (gQ (computeNsdf buffer) (τ - 1) - 2 * gQ (computeNsdf buffer) τ +
            gQ (computeNsdf buffer) (τ + 1)) ∧
      f = sampleRate / ((τ : ℚ) -
        (1/2 * (gQ (computeNsdf buffer) (τ - 1) - gQ (computeNsdf buffer) (τ + 1))) /
          (gQ (computeNsdf buffer) (τ - 1) - 2 * gQ (computeNsdf buffer) τ +
            gQ (computeNsdf buffer) (τ + 1))) := by
  unfold detectPitch at h
  by_cases hgate : 0 < minRms ∧ sumSq buffer < minRms ^ 2 * buffer.length
  · rw [if_pos hgate] at h
    exact absurd h (Option.noConfusion)
  rw [if_neg hgate] at h
  simp only [] at h
  rcases hres : findBestLocalMaximum (computeNsdf buffer)
      (findFirstNegativeCrossing (computeNsdf buffer) (⌊sampleRate / 1200⌋).toNat)
      (⌊sampleRate / 50⌋).toNat with _ | ⟨bestTau, bestVal⟩
  · rw [hres] at h
    exact absurd h (Option.noConfusion)
  · rw [hres] at h
    simp only [] at h
    by_cases hv : bestVal < 1/5
    · rw [if_pos hv] at h
      exact absurd h (Option.noConfusion)
    rw [if_neg hv] at h
    obtain ⟨hc, hval⟩ := fblm_some _ _ _ _ _ hres
    have hl : isLocalMax (computeNsdf buffer) bestTau := hc.2.2.2
    have h1le : 1 ≤ bestTau := isLocalMax_one_le _ _ hl
    have hdneg := isLocalMax_denom_neg _ _ hl
    rw [if_neg (ne_of_lt hdneg)] at h
    have hoff := parabola_offset_bound (gQ (computeNsdf buffer) (bestTau - 1))
      (gQ (computeNsdf buffer) bestTau) (gQ (computeNsdf buffer) (bestTau + 1))
      hl.1 hl.2
    have hτ : (1:ℚ) ≤ (bestTau:ℚ) := by exact_mod_cast h1le
    have habs := (abs_le.mp hoff).2
    have href : (1:ℚ)/2 ≤ (bestTau:ℚ) -
        (1/2 * (gQ (computeNsdf buffer) (bestTau - 1) - gQ (computeNsdf buffer) (bestTau + 1))) /
          (gQ (computeNsdf buffer) (bestTau - 1) - 2 * gQ (computeNsdf buffer) bestTau +
            gQ (computeNsdf buffer) (bestTau + 1)) := by linarith
    have hf : f = sampleRate / ((bestTau:ℚ) -
        (1/2 * (gQ (computeNsdf buffer) (bestTau - 1) - gQ (computeNsdf buffer) (bestTau + 1))) /
          (gQ (computeNsdf buffer) (bestTau - 1) - 2 * gQ (computeNsdf buffer) bestTau +
            gQ (computeNsdf buffer) (bestTau + 1))) := (Option.some_inj.mp h).symm
    have hfpos : 0 < f := by
      rw [hf]
      exact div_pos hsr (by linarith)
    exact ⟨hfpos, bestTau, bestVal, rfl, h1le, hl, hdneg, hoff, href, hf⟩

/-- Witness for `detectPitch_some_pos`: the period-4 buffer
`[1, -1, 1, -1]` at sample rate 200 yields the estimate 100 Hz, which is
positive. -/
theorem detectPitch_some_pos_witness : (0:ℚ) < 100 :=
  (detectPitch_some_pos [1, -1, 1, -1] 200 0 100 (by norm_num)
    (by norm_num [detectPitch, computeNsdf, nsdfGo, sumSq, autocorr, gQ,
      Finset.sum_range_succ, findFirstNegativeCrossing, ffncGo, isCrossing,
      findBestLocalMaximum, fblmGo, isLocalMax, updateBest])).1

lemma analyseFrequency_cents (hz : ℝ) :
    (analyseFrequency hz).cents =
      jsRound ((frequencyToMidiExact hz - jsRound (frequencyToMidiExact hz)) * 100) := rfl

lemma analyseFrequency_note (hz : ℝ) :
    (analyseFrequency hz).note =
      NOTE_NAMES.getD (noteIndexOf (jsRound (frequencyToMidiExact hz))).toNat "?" := rfl

/-- C8: for every positive frequency the cents deviation reported by
`analyseFrequency` is an integer in `[-50, 50]`; and a frequency exactly
55 cents above A4 is reported as the adjacent note A♯ with cents
renormalized to `-45`. -/
theorem analyseFrequency_cents_range :
    (∀ hz : ℝ, 0 < hz →
      -50 ≤ (analyseFrequency hz).cents ∧ (analyseFrequency hz).cents ≤ 50) ∧
    (analyseFrequency (440 * (2:ℝ) ^ ((55:ℝ)/1200))).note = "A♯" ∧
    (analyseFrequency (440 * (2:ℝ) ^ ((55:ℝ)/1200))).cents = -45 := by
  have hm : frequencyToMidiExact (440 * (2:ℝ) ^ ((55:ℝ)/1200)) = 1391/20 := by
    unfold frequencyToMidiExact
    have h1 : (440 * (2:ℝ) ^ ((55:ℝ)/1200)) / 440 = (2:ℝ) ^ ((55:ℝ)/1200) := by
      field_simp
    rw [h1, Real.logb_rpow (by norm_num) (by norm_num)]
    norm_num
  have hr : jsRound (1391/20 : ℝ) = 70 := by
    unfold jsRound
    rw [Int.floor_eq_iff]
    norm_num
  refine ⟨fun hz _ => analyseFrequency_cents hz ▸ cents_bounds (frequencyToMidiExact hz),
    ?_, ?_⟩
  · rw [analyseFrequency_note, hm, hr]
    have h10 : noteIndexOf 70 = 10 := by decide
    rw [h10]
    rfl
  · rw [analyseFrequency_cents, hm, hr]
    have h45 : ((1391:ℝ)/20 - (70:ℤ)) * 100 = -45 := by
      push_cast
      norm_num
    rw [h45]
    unfold jsRound
    rw [Int.floor_eq_iff]
    norm_num

/-- Witness for `analyseFrequency_cents_range` at 440 Hz (A4). -/
theorem analyseFrequency_cents_range_witness :
    -50 ≤ (analyseFrequency 440).cents ∧ (analyseFrequency 440).cents ≤ 50 :=
  analyseFrequency_cents_range.1 440 (by norm_num)

/-- C9: for every positive frequency `f`,
`midiToFrequency (frequencyToMidiExact f) = f` exactly, over the reals;
in particular the round trip holds at the standard pitches
`midiToFrequency 48, 60, 69, 72, 84`, all of which are positive. -/
theorem midi_frequency_roundtrip (f : ℝ) (hf : 0 < f) :
    midiToFrequency (frequencyToMidiExact f) = f := by
  unfold midiToFrequency frequencyToMidiExact
  have h1 : (12 * Real.logb 2 (f / 440) + 69 - 69) / 12 = Real.logb 2 (f / 440) := by
    ring
  rw [h1, Real.rpow_logb (by norm_num) (by norm_num) (by positivity)]
  field_simp

/-- Witness for `midi_frequency_roundtrip` at 440 Hz (MIDI 69). -/
theorem midi_frequency_roundtrip_witness :
    (0:ℝ) < 440 ∧ midiToFrequency (frequencyToMidiExact 440) = 440 :=
  ⟨by norm_num, midi_frequency_roundtrip 440 (by norm_num)⟩

/-- C10: the note-table index `((midiRounded % 12) + 12) % 12` always lies
in `[0, 11]` (also for negative rounded MIDI numbers, i.e. frequencies
below ~8.2 Hz), so `analyseFrequency` always returns one of the twelve
chromatic note names, never an out-of-bounds entry. -/
theorem analyseFrequency_note_total :
    (∀ m : ℤ, 0 ≤ noteIndexOf m ∧ noteIndexOf m < 12) ∧
    (∀ hz : ℝ, (analyseFrequency hz).note ∈ NOTE_NAMES) := by
  refine ⟨noteIndexOf_bounds, ?_⟩
  intro hz
  rw [analyseFrequency_note]
  obtain ⟨h0, h12⟩ := noteIndexOf_bounds (jsRound (frequencyToMidiExact hz))
  have hlt : (noteIndexOf (jsRound (frequencyToMidiExact hz))).toNat < NOTE_NAMES.length := by
    simp only [NOTE_NAMES, List.length_cons, List.length_nil]
    omega
  rw [List.getD_eq_getElem?_getD, List.getElem?_eq_getElem hlt]
  simp only [Option.getD_some]
  exact List.getElem_mem hlt
